import Mathlib

/-!
Verification of the handympi master/slave load balancer
(src/mpi4_balancer.py and src/handympi/handympi.py).

The scheduler (MPIBalancer) runs on a fixed participant set of ranks
0 .. numprocs-1; rank 0 is the master, ranks 1 .. numprocs-1 are the
slaves (workers).  We write W = numprocs - 1 for the worker count and
M = numworks for the item count.

Shallow embedding.  The master control loop (MPIBalancer.master,
src/mpi4_balancer.py lines 101-147) is modelled as an executable
function producing the sequence of observable events (work sends,
result receives, handleWorkResult calls, DIETAG sends).  The only
nondeterminism in a run is which worker's result the any-source
receive on line 119 / line 135 delivers next; this is resolved by an
oracle `ℕ → ℕ` consulted at each receive.  The channel state is
modelled by one FIFO queue per worker holding the work indices that
have been assigned to that worker and whose results the master has
not yet received: a slave (lines 149-165) answers each received work
message with exactly one result message, in order, so the results the
master can receive are exactly, and in order, the fronts of these
queues.
-/

namespace HandyMPI

/-- Observable events of a master run: `sendWork dest idx` is
`comm.send(work, dest, tag=MPI_WORKTAG)` (lines 110 and 123),
`recvResult src idx` is the any-source receive of the result that
worker rank `src` computed for item `idx` (lines 119 and 135),
`consume idx src` is the call `work.handleWorkResult(result, status)`
for that result (lines 126 and 140), and `sendDie dest` is
`comm.send('#', dest, tag=MPI_DIETAG)` (line 146). -/
inductive Event where
  | sendWork (dest : ℕ) (idx : ℕ)
  | recvResult (src : ℕ) (idx : ℕ)
  | consume (idx : ℕ) (src : ℕ)
  | sendDie (dest : ℕ)
deriving DecidableEq, Repr

/-- Per-worker channel state: slot w (for worker rank w+1) holds the
work indices assigned to that worker whose results have not yet been
received by the master, in assignment order. -/
abbrev Queues := ℕ → List ℕ

/-- Master sends work index `idx` to worker slot `w` (rank w+1). -/
def assign (qs : Queues) (w idx : ℕ) : Queues :=
  Function.update qs w (qs w ++ [idx])

/-- Worker slots that currently hold at least one in-flight item;
exactly these workers can be delivered by an any-source receive. -/
def busyWorkers (W : ℕ) (qs : Queues) : List ℕ :=
  (List.range W).filter (fun w => !(qs w).isEmpty)

/-- One blocking `comm.recv(source=MPI.ANY_SOURCE, tag=MPI_WORKTAG)`
(lines 119 and 135): the oracle value `choice` picks one busy worker;
the received result is the one for that worker's oldest in-flight
index.  Returns `none` when no worker has work in flight, i.e. the
receive would block forever (deadlock). -/
def recvAny (W : ℕ) (qs : Queues) (choice : ℕ) : Option (ℕ × ℕ × Queues) :=
  let busy := busyWorkers W qs
  if busy.length = 0 then none
  else
    let w := busy.getD (choice % busy.length) 0
    match qs w with
    | [] => none
    | idx :: rest => some (w, idx, Function.update qs w rest)

/-- Seed loop, lines 107-111: `for i in range(0, min(numprocs-1, numworks)):
comm.send(i, dest=i+1, tag=MPI_WORKTAG)`.  Called on the list of loop
indices; returns the emitted events and the updated channel state. -/
def seedPhase : Queues → List ℕ → List Event × Queues
  | qs, [] => ([], qs)
  | qs, i :: rest =>
    let r := seedPhase (assign qs i i) rest
    (Event.sendWork (i + 1) i :: r.1, r.2)

/-- Steady-state loop, lines 117-126: `for work in range(numprocs-1,
numworks):` receive a result from any source, send `work` to that
same source, then call `handleWorkResult` on the received result.
Called on the list of remaining work indices; the counter `t` feeds
the oracle.  `none` models the receive deadlocking. -/
def steadyPhase (oracle : ℕ → ℕ) (W : ℕ) :
    Queues → ℕ → List ℕ → Option (List Event × Queues × ℕ)
  | qs, t, [] => some ([], qs, t)
  | qs, t, j :: rest =>
    match recvAny W qs (oracle t) with
    | none => none
    | some (w, idx, qs1) =>
      match steadyPhase oracle W (assign qs1 w j) (t + 1) rest with
      | none => none
      | some (evs, qs2, t2) =>
        some (Event.recvResult (w + 1) idx :: Event.sendWork (w + 1) j ::
                Event.consume idx (w + 1) :: evs, qs2, t2)

/-- Drain loop, lines 133-140: `while numcompleted < numworks:` receive
a result from any source and call `handleWorkResult` on it.  Each
iteration increments `numcompleted` by one, so the loop runs exactly
`numworks - numcompleted` more times; that count is passed as the
first ℕ argument. -/
def drainPhase (oracle : ℕ → ℕ) (W : ℕ) :
    Queues → ℕ → ℕ → Option (List Event × Queues)
  | qs, _, 0 => some ([], qs)
  | qs, t, n + 1 =>
    match recvAny W qs (oracle t) with
    | none => none
    | some (w, idx, qs1) =>
      match drainPhase oracle W qs1 (t + 1) n with
      | none => none
      | some (evs, qs2) =>
        some (Event.recvResult (w + 1) idx :: Event.consume idx (w + 1) :: evs, qs2)

/-- MPIBalancer.master (lines 101-147) for worker count `W = numprocs - 1`
and item count `M = numworks`: seed loop over `range(min(numprocs-1,
numworks))`, steady loop over `range(numprocs-1, numworks)` (which has
`M - W` iterations and leaves `numcompleted = M - W`), drain loop
(`M - (M - W)` further receives), then the DIETAG loop over
`range(1, numprocs)` (line 145-146).  The result is the full event
trace, or `none` if some receive deadlocks. -/
def masterRun (W M : ℕ) (oracle : ℕ → ℕ) : Option (List Event) :=
  let s := seedPhase (fun _ => []) (List.range (min W M))
  match steadyPhase oracle W s.2 0 (List.range' W (M - W)) with
  | none => none
  | some (evs2, qs2, t2) =>
    match drainPhase oracle W qs2 t2 (M - (M - W)) with
    | none => none
    | some (evs3, _) =>
      some (s.1 ++ evs2 ++ evs3 ++ (List.range' 1 W).map Event.sendDie)

/-- Does this event send a work message to rank `r`? -/
def isWorkSendTo (r : ℕ) : Event → Bool
  | .sendWork d _ => decide (d = r)
  | _ => false

/-- Does this event receive a result from rank `r`? -/
def isResultFrom (r : ℕ) : Event → Bool
  | .recvResult s _ => decide (s = r)
  | _ => false

/-- Number of work messages sent to rank `r` in the trace. -/
def sentTo (evs : List Event) (r : ℕ) : ℕ := evs.countP (isWorkSendTo r)

/-- Number of result messages received from rank `r` in the trace. -/
def recvFrom (evs : List Event) (r : ℕ) : ℕ := evs.countP (isResultFrom r)

/-- Work indices whose results were passed to handleWorkResult, in
call order. -/
def consumedIdxs (evs : List Event) : List ℕ :=
  evs.filterMap (fun e => match e with
    | .consume idx _ => some idx
    | _ => none)

/-- Destinations of DIETAG messages, in send order. -/
def dieSends (evs : List Event) : List ℕ :=
  evs.filterMap (fun e => match e with
    | .sendDie d => some d
    | _ => none)

/-- Event block of one steady-state iteration for `(j, (w, idx))`:
receive worker (w+1)'s result for `idx`, send it the next index `j`,
then consume the received result (lines 119, 123, 126 in that order). -/
def stepEvents (p : ℕ × ℕ × ℕ) : List Event :=
  [Event.recvResult (p.2.1 + 1) p.2.2, Event.sendWork (p.2.1 + 1) p.1,
   Event.consume p.2.2 (p.2.1 + 1)]

/-- Event block of one drain iteration for `(w, idx)`: receive worker
(w+1)'s result for `idx`, then consume it (lines 135, 140). -/
def drainEvents (p : ℕ × ℕ) : List Event :=
  [Event.recvResult (p.1 + 1) p.2, Event.consume p.2 (p.1 + 1)]

/-- Multiset of work indices currently in flight, over all worker
slots below `W`. -/
def queuedMultiset (W : ℕ) (qs : Queues) : Multiset ℕ :=
  match W with
  | 0 => 0
  | v + 1 => queuedMultiset v qs + ↑(qs v)

/-- MPIBalancer.__init__ (lines 80-99): reject fewer than two
processes (lines 89-92), otherwise record `numworks =
work.getNumWorkItems()` (line 97) with no validation of its value.
The returned event list records every message sent during
construction; the constructor body contains no send, so it is empty.
`getNumWorkItems` is an arbitrary Python integer, hence ℤ. -/
def balancerInit (numprocs : ℕ) (numWorkItems : ℤ) :
    Except String (ℤ × List Event) :=
  if numprocs < 2 then
    Except.error
      "MPIBalancer must run on at least 2 processes for the Master Slave paradigm to make sense."
  else
    Except.ok (numWorkItems, [])

/-- Messages a slave can receive from the master. -/
inductive SlaveMsg where
  | work (idx : ℕ)
  | die
deriving DecidableEq, Repr

/-- MPIBalancer.slave (lines 149-165): repeatedly receive; on DIETAG
return, otherwise compute `calcWorkResult(worknum)` and send the
result back.  Applied to the ordered list of messages the master
directed at this slave; returns the results it sends back, in order. -/
def slaveRun {ρ : Type} (compute : ℕ → ρ) : List SlaveMsg → List ρ
  | [] => []
  | .die :: _ => []
  | .work idx :: rest => compute idx :: slaveRun compute rest

/-- MPIBalancer.run (lines 167-175): rank 0 runs master, the others
run slave.  The `finalRun` parameter is accepted (default True) and
never read anywhere in the body.  The result is the master trace on
rank 0 and the slave's outgoing results elsewhere. -/
def balancerRun {ρ : Type} (W M : ℕ) (oracle : ℕ → ℕ) (myid : ℕ)
    (compute : ℕ → ρ) (inbox : List SlaveMsg) (finalRun : Bool) :
    Option (List Event) ⊕ List ρ :=
  if myid = 0 then Sum.inl (masterRun W M oracle)
  else Sum.inr (slaveRun compute inbox)

/-- Coordinator-side state of GenericMPI (src/handympi/handympi.py):
`results` and `count` as set up by masterBeforeWork (lines 76-81). -/
structure GMPIState (β : Type) where
  results : List (Option β)
  count : ℕ
deriving Repr

/-- GenericMPI.masterBeforeWork (lines 76-81): `self.count = 0;
self.results = [None]*len(self.worklist)`. -/
def gmpiBeforeWork {α β : Type} (l : List α) : GMPIState β :=
  ⟨List.replicate l.length none, 0⟩

/-- GenericMPI.handleWorkResult (lines 69-74) applied to the result
`(idx, f l[idx])` that GenericMPI.calcWorkResult (lines 63-67)
produced for work index `idx`: `self.results[result[0]] = result[1];
self.count += 1`. -/
def gmpiHandle {α β : Type} (f : α → β) (l : List α)
    (st : GMPIState β) (idx : ℕ) : GMPIState β :=
  ⟨st.results.set idx ((l.get? idx).map f), st.count + 1⟩

/-- Distributed path of foreach (handympi.py lines 172-182): build a
GenericMPI work object over `f` and `l`, run the balancer, and return
the coordinator's `results` list.  The master calls handleWorkResult
once per consume event, in consume order.  The `finalRun` flag is
forwarded to `balancer.run`, which ignores it. -/
def gmpiRun {α β : Type} (f : α → β) (l : List α) (W : ℕ)
    (oracle : ℕ → ℕ) (finalRun : Bool) : Option (List (Option β)) :=
  (masterRun W l.length oracle).map fun evs =>
    ((consumedIdxs evs).foldl (gmpiHandle f l) (gmpiBeforeWork l)).results

/-- Serial branch of foreach (handympi.py lines 190-197, the
`return_=True` case taken when MPI is unavailable or disabled):
`results=[]`, then `for v in l: results.append(f(v))`. -/
def foreachSerial {α β : Type} (f : α → β) (l : List α) : List β :=
  l.foldl (fun results v => results ++ [f v]) []

/-- Python value passed as the masterClass or slaveClass argument of
SimpleMasterSlave / RunMasterSlave: either an already constructed
instance, together with what calling it with zero arguments yields
(`none` meaning a TypeError is raised, as for the intended master and
slave objects, whose call operator takes arguments), or a class whose
zero-argument constructor yields a fresh instance. -/
inductive PyArg (μ : Type) where
  | ready (value : μ) (callZeroArgs : Option μ)
  | cls (construct : Unit → μ)

/-- Python's `hasattr(x, '__init__')` used on lines 112 and 120 of
handympi.py: every Python object, instance or class, inherits the
attribute from `object`, so the test is true for every argument. -/
def hasattrDunderInit {μ : Type} (_ : PyArg μ) : Bool := true

/-- Calling the argument with zero arguments, as in `masterClass()`
(line 115) or `slaveClass()` (line 123): a class runs its constructor,
an instance dispatches to its call operator (which may raise). -/
def callZero {μ : Type} : PyArg μ → Option μ
  | .ready _ c => c
  | .cls construct => some (construct ())

/-- SimpleMasterSlave.masterBeforeWork, handympi.py lines 108-115:
`if not hasattr(self.masterClass, '__init__'): self.masterInstance =
self.masterClass` (binding the argument itself, Sum.inl) `else:
self.masterInstance = self.masterClass()` (calling it, Sum.inr);
an error is raised if the call raises. -/
def resolveMasterInstance {μ : Type} (masterClass : PyArg μ) :
    Except String (PyArg μ ⊕ μ) :=
  if hasattrDunderInit masterClass = false then
    Except.ok (Sum.inl masterClass)
  else
    match callZero masterClass with
    | some m => Except.ok (Sum.inr m)
    | none => Except.error "TypeError: not callable with zero arguments"

/-- Serial branch of RunMasterSlave, handympi.py lines 155-164:
`master = masterClass(); slave = slaveClass()`, then
`for i in range(len(workParams)): master(i, slave(workParams[i]))`,
returning master.  Both arguments are called unconditionally; the
master object is modelled by a fold of its call operator over the
indexed slave outputs. -/
def runMasterSlaveSerial {μ σ α ρ : Type} (masterClass : PyArg μ)
    (slaveClass : PyArg σ) (workParams : List α)
    (masterCall : μ → ℕ × ρ → μ) (slaveCall : σ → α → ρ) :
    Except String μ :=
  match callZero masterClass with
  | none => Except.error "TypeError: not callable with zero arguments"
  | some master =>
    match callZero slaveClass with
    | none => Except.error "TypeError: not callable with zero arguments"
    | some slave =>
      Except.ok (workParams.enum.foldl
        (fun m p => masterCall m (p.1, slaveCall slave p.2)) master)

/-! Basic helper lemmas about the channel-state bookkeeping. -/

lemma busyWorkers_mem {W : ℕ} {qs : Queues} {w : ℕ} :
    w ∈ busyWorkers W qs ↔ w < W ∧ qs w ≠ [] := by
  simp [busyWorkers, List.mem_filter, List.mem_range]

lemma queuedMultiset_congr {W : ℕ} {qs qs2 : Queues}
    (h : ∀ u, u < W → qs u = qs2 u) :
    queuedMultiset W qs = queuedMultiset W qs2 := by
  induction W with
  | zero => rfl
  | succ v ih =>
    simp only [queuedMultiset]
    rw [ih (fun u hu => h u (Nat.lt_succ_of_lt hu)), h v (Nat.lt_succ_self v)]

lemma queuedMultiset_update {W w : ℕ} (hw : w < W) (qs : Queues) (Q : List ℕ) :
    queuedMultiset W (Function.update qs w Q) + ↑(qs w)
      = queuedMultiset W qs + ↑Q := by
  induction W with
  | zero => omega
  | succ v ih =>
    simp only [queuedMultiset]
    rcases Nat.lt_succ_iff_lt_or_eq.mp hw with hlt | heq
    · have hvw : v ≠ w := by omega
      rw [Function.update_noteq hvw]
      rw [add_right_comm, ih hlt, add_right_comm]
    · subst heq
      rw [Function.update_same]
      have hagree : ∀ u, u < w → Function.update qs w Q u = qs u := by
        intro u hu
        rw [Function.update_noteq (by omega : u ≠ w)]
      rw [queuedMultiset_congr hagree]
      rw [add_right_comm]

lemma queuedMultiset_assign {W w : ℕ} (hw : w < W) (qs : Queues) (j : ℕ) :
    queuedMultiset W (assign qs w j) = queuedMultiset W qs + ↑[j] := by
  have h := queuedMultiset_update hw qs (qs w ++ [j])
  have h2 : (↑(qs w ++ [j]) : Multiset ℕ) = ↑(qs w) + ↑[j] :=
    (Multiset.coe_add _ _).symm
  rw [h2] at h
  have h3 : queuedMultiset W (assign qs w j) + ↑(qs w)
      = queuedMultiset W qs + ↑[j] + ↑(qs w) := by
    rw [assign, h, ← add_assoc, add_right_comm]
  exact add_right_cancel h3

lemma queuedMultiset_zero {W : ℕ} {qs : Queues}
    (h : ∀ w, w < W → qs w = []) : queuedMultiset W qs = 0 := by
  induction W with
  | zero => rfl
  | succ v ih =>
    simp only [queuedMultiset]
    rw [ih (fun u hu => h u (Nat.lt_succ_of_lt hu)), h v (Nat.lt_succ_self v)]
    rfl

lemma queuedMultiset_exists_busy {W : ℕ} {qs : Queues}
    (h : queuedMultiset W qs ≠ 0) : ∃ w, w < W ∧ qs w ≠ [] := by
  by_contra hc
  push_neg at hc
  exact h (queuedMultiset_zero (fun w hw => hc w hw))

lemma recvAny_eq_some {W : ℕ} {qs : Queues} (c : ℕ)
    (h : ∃ w, w < W ∧ qs w ≠ []) :
    ∃ w idx rest, qs w = idx :: rest ∧ w < W ∧
      recvAny W qs c = some (w, idx, Function.update qs w rest) := by
  have hb : busyWorkers W qs ≠ [] := by
    obtain ⟨w, hw, hq⟩ := h
    intro hnil
    have hmem : w ∈ busyWorkers W qs := busyWorkers_mem.mpr ⟨hw, hq⟩
    rw [hnil] at hmem
    exact absurd hmem (List.not_mem_nil w)
  have hlen : (busyWorkers W qs).length ≠ 0 := by
    simpa [List.length_eq_zero] using hb
  have hlt : c % (busyWorkers W qs).length < (busyWorkers W qs).length :=
    Nat.mod_lt _ (Nat.pos_of_ne_zero hlen)
  have hmem : (busyWorkers W qs).getD (c % (busyWorkers W qs).length) 0
      ∈ busyWorkers W qs := by
    rw [List.getD_eq_getElem _ _ hlt]
    exact List.getElem_mem _
  obtain ⟨hwW, hqne⟩ := busyWorkers_mem.mp hmem
  cases hq : qs ((busyWorkers W qs).getD (c % (busyWorkers W qs).length) 0) with
  | nil => exact absurd hq hqne
  | cons idx rest =>
    refine ⟨_, idx, rest, hq, hwW, ?_⟩
    simp only [recvAny]
    rw [if_neg hlen, hq]

lemma pfx_of_cons {α : Type} {p : List α} {x : α} {l : List α}
    (h : p <+: x :: l) : p = [] ∨ ∃ q, q <+: l ∧ p = x :: q := by
  cases p with
  | nil => exact Or.inl rfl
  | cons a p =>
    obtain ⟨t, ht⟩ := h
    rw [List.cons_append] at ht
    injection ht with h1 h2
    exact Or.inr ⟨p, ⟨t, h2⟩, by rw [h1]⟩

lemma pfx_append_cases {α : Type} {p a b : List α} (h : p <+: a ++ b) :
    p <+: a ∨ ∃ q, q <+: b ∧ p = a ++ q := by
  induction a generalizing p with
  | nil => exact Or.inr ⟨p, by simpa using h, by simp⟩
  | cons x a ih =>
    rcases pfx_of_cons (by simpa using h) with rfl | ⟨q, hq, rfl⟩
    · exact Or.inl List.nil_prefix
    · rcases ih hq with h1 | ⟨q2, hq2, rfl⟩
      · obtain ⟨t, ht⟩ := h1
        exact Or.inl ⟨t, by rw [List.cons_append, ht]⟩
      · exact Or.inr ⟨q2, hq2, by simp⟩

/-! Seed-phase lemmas. -/

lemma seedPhase_fst (is : List ℕ) (qs : Queues) :
    (seedPhase qs is).1 = is.map (fun i => Event.sendWork (i + 1) i) := by
  induction is generalizing qs with
  | nil => rfl
  | cons i rest ih => simp [seedPhase, ih]

lemma seedPhase_snd (is : List ℕ) (qs : Queues) (hnd : is.Nodup) (w : ℕ) :
    (seedPhase qs is).2 w = if w ∈ is then qs w ++ [w] else qs w := by
  induction is generalizing qs with
  | nil => simp [seedPhase]
  | cons i rest ih =>
    have hnd2 := List.nodup_cons.mp hnd
    simp only [seedPhase]
    rw [ih (assign qs i i) hnd2.2]
    by_cases hw : w ∈ rest
    · have hwi : w ≠ i := fun he => hnd2.1 (he ▸ hw)
      simp [hw, assign, Function.update_apply, hwi, List.mem_cons]
    · by_cases hwi : w = i
      · subst hwi
        simp [hw, assign, Function.update_apply]
      · simp [hw, assign, Function.update_apply, hwi, List.mem_cons]

lemma seed_qs_eq (W M w : ℕ) :
    (seedPhase (fun _ => []) (List.range (min W M))).2 w
      = if w < min W M then [w] else [] := by
  rw [seedPhase_snd _ _ (List.nodup_range _) w]
  simp [List.mem_range]

lemma queuedMultiset_cutoff : ∀ W m : ℕ, m ≤ W →
    queuedMultiset W (fun w => if w < m then [w] else []) = ↑(List.range m) := by
  intro W
  induction W with
  | zero =>
    intro m hm
    interval_cases m
    rfl
  | succ v ih =>
    intro m hm
    simp only [queuedMultiset]
    by_cases hmv : m ≤ v
    · have hv : ¬ v < m := by omega
      simp only [hv, if_false]
      rw [ih m hmv]
      simp
    · have heq : m = v + 1 := by omega
      subst heq
      have hv : v < v + 1 := Nat.lt_succ_self v
      simp only [hv, if_true]
      have hagree : ∀ u, u < v →
          (fun w => if w < v + 1 then [w] else []) u
            = (fun w => if w < v then [w] else []) u := by
        intro u hu
        simp only [if_pos (Nat.lt_succ_of_lt hu), if_pos hu]
      rw [queuedMultiset_congr hagree]
      rw [ih v (le_refl v), List.range_succ]
      rw [← Multiset.coe_add]

/-! Count helpers. -/

lemma sentTo_append (a b : List Event) (r : ℕ) :
    sentTo (a ++ b) r = sentTo a r + sentTo b r := List.countP_append _ _ _

lemma recvFrom_append (a b : List Event) (r : ℕ) :
    recvFrom (a ++ b) r = recvFrom a r + recvFrom b r := List.countP_append _ _ _

lemma stepEvents_sentTo (j w idx r : ℕ) :
    sentTo (stepEvents (j, w, idx)) r = if w + 1 = r then 1 else 0 := by
  by_cases h : w + 1 = r <;>
    simp [stepEvents, sentTo, List.countP_cons, isWorkSendTo, isResultFrom, h]

lemma stepEvents_recvFrom (j w idx r : ℕ) :
    recvFrom (stepEvents (j, w, idx)) r = if w + 1 = r then 1 else 0 := by
  by_cases h : w + 1 = r <;>
    simp [stepEvents, recvFrom, List.countP_cons, isWorkSendTo, isResultFrom, h]

lemma drainEvents_sentTo (w idx r : ℕ) :
    sentTo (drainEvents (w, idx)) r = 0 := by
  simp [drainEvents, sentTo, List.countP_cons, isWorkSendTo]

lemma drainEvents_recvFrom (w idx r : ℕ) :
    recvFrom (drainEvents (w, idx)) r = if w + 1 = r then 1 else 0 := by
  by_cases h : w + 1 = r <;>
    simp [drainEvents, recvFrom, List.countP_cons, isResultFrom, h]

/-! Main induction for the steady-state loop (lines 117-126).
Hypotheses: some result is in flight (the receive cannot deadlock),
every busy worker slot is below the bound `B`, and every worker has
at most one item in flight.  The conclusions describe the emitted
events, the chosen workers, the multiset of consumed indices, the
per-worker message counts and the in-flight bound along every prefix. -/

lemma steadyPhase_spec (oracle : ℕ → ℕ) (W B : ℕ) :
    ∀ (js : List ℕ) (qs : Queues) (t : ℕ),
      queuedMultiset W qs ≠ 0 →
      (∀ w, qs w ≠ [] → w < B) →
      (∀ w, (qs w).length ≤ 1) →
      ∃ rs qs2 t2,
        steadyPhase oracle W qs t js
          = some ((js.zip rs).flatMap stepEvents, qs2, t2) ∧
        rs.length = js.length ∧
        (∀ pr ∈ rs, pr.1 < B) ∧
        queuedMultiset W qs2 + ↑(rs.map Prod.snd)
          = queuedMultiset W qs + ↑js ∧
        (∀ w, qs2 w ≠ [] → w < B) ∧
        (∀ w, (qs2 w).length ≤ 1) ∧
        (∀ w, (qs2 w).length + recvFrom ((js.zip rs).flatMap stepEvents) (w + 1)
            = (qs w).length + sentTo ((js.zip rs).flatMap stepEvents) (w + 1)) ∧
        (∀ p, p <+: (js.zip rs).flatMap stepEvents → ∀ w,
            (qs w).length + sentTo p (w + 1) ≤ recvFrom p (w + 1) + 1) := by
  intro js
  induction js with
  | nil =>
    intro qs t hne hB hlen
    refine ⟨[], qs, t, rfl, rfl, by simp, by simp, hB, hlen,
      by simp [sentTo, recvFrom], ?_⟩
    intro p hp w
    have hpn : p = [] := by
      simpa using List.prefix_nil.mp (by simpa using hp)
    subst hpn
    simp only [sentTo, recvFrom, List.countP_nil]
    have := hlen w
    omega
  | cons j rest ih =>
    intro qs t hne hB hlen
    obtain ⟨w, idx, rst, hq, hwW, hrecv⟩ :=
      recvAny_eq_some (oracle t) (queuedMultiset_exists_busy hne)
    have hrst : rst = [] := by
      have hl := hlen w
      rw [hq] at hl
      simpa using hl
    subst hrst
    have hqsN_w : assign (Function.update qs w []) w j w = [j] := by
      simp [assign, Function.update_same]
    have hqsN_ne : ∀ v, v ≠ w →
        assign (Function.update qs w []) w j v = qs v := by
      intro v hv
      simp [assign, Function.update_noteq hv]
    have hM1 : queuedMultiset W (Function.update qs w []) + ↑[idx]
        = queuedMultiset W qs := by
      have h := queuedMultiset_update hwW qs ([] : List ℕ)
      rw [hq] at h
      simpa using h
    have hMN : queuedMultiset W (assign (Function.update qs w []) w j)
        = queuedMultiset W (Function.update qs w []) + ↑[j] :=
      queuedMultiset_assign hwW _ j
    have hneN : queuedMultiset W (assign (Function.update qs w []) w j) ≠ 0 := by
      rw [hMN]
      intro h0
      have := congrArg Multiset.card h0
      simp at this
    have hBN : ∀ v, assign (Function.update qs w []) w j v ≠ [] → v < B := by
      intro v hv
      by_cases hvw : v = w
      · subst hvw
        exact hB v (by rw [hq]; simp)
      · exact hB v (by rwa [hqsN_ne v hvw] at hv)
    have hlenN : ∀ v, (assign (Function.update qs w []) w j v).length ≤ 1 := by
      intro v
      by_cases hvw : v = w
      · subst hvw
        rw [hqsN_w]
        simp
      · rw [hqsN_ne v hvw]
        exact hlen v
    obtain ⟨rs, qs2, t2, hrun, hlenrs, hrsB, hmul, hB2, hlen2, hcnt, hpfx⟩ :=
      ih (assign (Function.update qs w []) w j) (t + 1) hneN hBN hlenN
    have hwB : w < B := hB w (by rw [hq]; simp)
    have hqw1 : (qs w).length = 1 := by rw [hq]; rfl
    refine ⟨(w, idx) :: rs, qs2, t2, ?_, by simp [hlenrs], ?_, ?_, hB2, hlen2, ?_, ?_⟩
    · simp only [steadyPhase, hrecv, hrun, List.zip_cons_cons, List.flatMap_cons,
        stepEvents]
      rfl
    · intro pr hpr
      rcases List.mem_cons.mp hpr with rfl | hmem
      · exact hwB
      · exact hrsB pr hmem
    · have e1 : (↑(((w, idx) :: rs).map Prod.snd) : Multiset ℕ)
          = ↑[idx] + ↑(rs.map Prod.snd) := by
        rw [List.map_cons, Multiset.coe_add]
        rfl
      have e2 : (↑(j :: rest) : Multiset ℕ) = ↑[j] + ↑rest := by
        rw [Multiset.coe_add]
        rfl
      rw [e1, e2]
      calc queuedMultiset W qs2 + (↑[idx] + ↑(rs.map Prod.snd))
          = (queuedMultiset W qs2 + ↑(rs.map Prod.snd)) + ↑[idx] := by abel
        _ = (queuedMultiset W (assign (Function.update qs w []) w j) + ↑rest)
              + ↑[idx] := by rw [hmul]
        _ = ((queuedMultiset W (Function.update qs w []) + ↑[j]) + ↑rest)
              + ↑[idx] := by rw [hMN]
        _ = (queuedMultiset W (Function.update qs w []) + ↑[idx])
              + (↑[j] + ↑rest) := by abel
        _ = queuedMultiset W qs + (↑[j] + ↑rest) := by rw [hM1]
    · intro v
      have hsplit : ((j :: rest).zip ((w, idx) :: rs)).flatMap stepEvents
          = stepEvents (j, w, idx) ++ (rest.zip rs).flatMap stepEvents := by
        simp [List.zip_cons_cons, List.flatMap_cons]
      rw [hsplit, recvFrom_append, sentTo_append, stepEvents_recvFrom,
        stepEvents_sentTo]
      have hc := hcnt v
      by_cases hvw : v = w
      · have hlN : (assign (Function.update qs w []) w j v).length = 1 := by
          rw [hvw, hqsN_w]
          rfl
        rw [hlN] at hc
        have hl1 : (qs v).length = 1 := by rw [hvw, hqw1]
        have hcond : w + 1 = v + 1 := by omega
        rw [if_pos hcond, hl1]
        omega
      · rw [hqsN_ne v hvw] at hc
        have hcond : ¬ (w + 1 = v + 1) := by omega
        rw [if_neg hcond]
        omega
    · intro p hp v
      have hsplit : ((j :: rest).zip ((w, idx) :: rs)).flatMap stepEvents
          = Event.recvResult (w + 1) idx :: Event.sendWork (w + 1) j ::
            Event.consume idx (w + 1) :: (rest.zip rs).flatMap stepEvents := by
        simp [List.zip_cons_cons, List.flatMap_cons, stepEvents]
      rw [hsplit] at hp
      have hlenv := hlen v
      rcases pfx_of_cons hp with rfl | ⟨p1, hp1, rfl⟩
      · simp only [sentTo, recvFrom, List.countP_nil]
        omega
      rcases pfx_of_cons hp1 with rfl | ⟨p2, hp2, rfl⟩
      · have hs : sentTo [Event.recvResult (w + 1) idx] (v + 1) = 0 := by
          simp [sentTo, List.countP_cons, isWorkSendTo]
        rw [hs]
        omega
      rcases pfx_of_cons hp2 with rfl | ⟨p3, hp3, rfl⟩
      · have hs : sentTo [Event.recvResult (w + 1) idx,
              Event.sendWork (w + 1) j] (v + 1)
            = if w + 1 = v + 1 then 1 else 0 := by
          by_cases hvw : w + 1 = v + 1 <;>
            simp [sentTo, List.countP_cons, isWorkSendTo, isResultFrom, hvw]
        have hr : recvFrom [Event.recvResult (w + 1) idx,
              Event.sendWork (w + 1) j] (v + 1)
            = if w + 1 = v + 1 then 1 else 0 := by
          by_cases hvw : w + 1 = v + 1 <;>
            simp [recvFrom, List.countP_cons, isWorkSendTo, isResultFrom, hvw]
        rw [hs, hr]
        by_cases hvw : w + 1 = v + 1
        · have hl1 : (qs v).length = 1 := by
            rw [(by omega : v = w), hqw1]
          rw [if_pos hvw, hl1]
        · rw [if_neg hvw]
          omega
      · have hih := hpfx p3 hp3 v
        have hcount : sentTo (Event.recvResult (w + 1) idx ::
              Event.sendWork (w + 1) j :: Event.consume idx (w + 1) :: p3) (v + 1)
            = (if w + 1 = v + 1 then 1 else 0) + sentTo p3 (v + 1) := by
          by_cases hvw : w + 1 = v + 1 <;>
            simp [sentTo, List.countP_cons, isWorkSendTo, hvw, Nat.add_comm]
        have hcount2 : recvFrom (Event.recvResult (w + 1) idx ::
              Event.sendWork (w + 1) j :: Event.consume idx (w + 1) :: p3) (v + 1)
            = (if w + 1 = v + 1 then 1 else 0) + recvFrom p3 (v + 1) := by
          by_cases hvw : w + 1 = v + 1 <;>
            simp [recvFrom, List.countP_cons, isResultFrom, hvw, Nat.add_comm]
        rw [hcount, hcount2]
        by_cases hvw : v = w
        · have hlN : (assign (Function.update qs w []) w j v).length = 1 := by
            rw [hvw, hqsN_w]
            rfl
          rw [hlN] at hih
          have hl1 : (qs v).length = 1 := by rw [hvw, hqw1]
          have hcond : w + 1 = v + 1 := by omega
          rw [if_pos hcond, hl1]
          omega
        · rw [hqsN_ne v hvw] at hih
          have hcond : ¬ (w + 1 = v + 1) := by omega
          rw [if_neg hcond]
          omega

/-! Main induction for the drain loop (lines 133-140).  The loop
count equals the number of in-flight results, so it receives exactly
the outstanding results and consumes them all. -/

lemma drainPhase_spec (oracle : ℕ → ℕ) (W B : ℕ) :
    ∀ (n : ℕ) (qs : Queues) (t : ℕ),
      n = Multiset.card (queuedMultiset W qs) →
      (∀ w, qs w ≠ [] → w < B) →
      (∀ w, (qs w).length ≤ 1) →
      ∃ (rs : List (ℕ × ℕ)) (qs2 : Queues),
        drainPhase oracle W qs t n = some (rs.flatMap drainEvents, qs2) ∧
        rs.length = n ∧
        (∀ pr ∈ rs, pr.1 < B) ∧
        (↑(rs.map Prod.snd) : Multiset ℕ) = queuedMultiset W qs ∧
        (∀ p, p <+: rs.flatMap drainEvents → ∀ w,
            (qs w).length + sentTo p (w + 1) ≤ recvFrom p (w + 1) + 1) := by
  intro n
  induction n with
  | zero =>
    intro qs t hcard hB hlen
    have h0 : queuedMultiset W qs = 0 :=
      Multiset.card_eq_zero.mp (by omega)
    refine ⟨[], qs, rfl, rfl, by simp, by rw [h0]; simp, ?_⟩
    intro p hp w
    have hpn : p = [] := by
      simpa using List.prefix_nil.mp (by simpa using hp)
    subst hpn
    simp only [sentTo, recvFrom, List.countP_nil]
    have := hlen w
    omega
  | succ n ih =>
    intro qs t hcard hB hlen
    have hne : queuedMultiset W qs ≠ 0 := by
      intro h0
      rw [h0] at hcard
      simp at hcard
    obtain ⟨w, idx, rst, hq, hwW, hrecv⟩ :=
      recvAny_eq_some (oracle t) (queuedMultiset_exists_busy hne)
    have hrst : rst = [] := by
      have hl := hlen w
      rw [hq] at hl
      simpa using hl
    subst hrst
    have hM1 : queuedMultiset W (Function.update qs w []) + ↑[idx]
        = queuedMultiset W qs := by
      have h := queuedMultiset_update hwW qs ([] : List ℕ)
      rw [hq] at h
      simpa using h
    have hcard2 : n = Multiset.card (queuedMultiset W (Function.update qs w [])) := by
      have := congrArg Multiset.card hM1
      simp at this
      omega
    have hB2 : ∀ v, Function.update qs w [] v ≠ [] → v < B := by
      intro v hv
      by_cases hvw : v = w
      · rw [hvw, Function.update_same] at hv
        exact absurd rfl hv
      · exact hB v (by rwa [Function.update_noteq hvw] at hv)
    have hlen2 : ∀ v, (Function.update qs w [] v).length ≤ 1 := by
      intro v
      by_cases hvw : v = w
      · rw [hvw, Function.update_same]
        simp
      · rw [Function.update_noteq hvw]
        exact hlen v
    obtain ⟨rs, qs2, hrun, hlenrs, hrsB, hmul, hpfx⟩ :=
      ih (Function.update qs w []) (t + 1) hcard2 hB2 hlen2
    have hwB : w < B := hB w (by rw [hq]; simp)
    refine ⟨(w, idx) :: rs, qs2, ?_, by simp [hlenrs], ?_, ?_, ?_⟩
    · simp only [drainPhase, hrecv, hrun, List.flatMap_cons, drainEvents]
      rfl
    · intro pr hpr
      rcases List.mem_cons.mp hpr with rfl | hmem
      · exact hwB
      · exact hrsB pr hmem
    · have e1 : (↑(((w, idx) :: rs).map Prod.snd) : Multiset ℕ)
          = ↑[idx] + ↑(rs.map Prod.snd) := by
        rw [List.map_cons, Multiset.coe_add]
        rfl
      rw [e1, hmul, add_comm]
      exact hM1
    · intro p hp v
      have hsplit : (((w, idx) :: rs)).flatMap drainEvents
          = Event.recvResult (w + 1) idx :: Event.consume idx (w + 1) ::
            rs.flatMap drainEvents := by
        simp [List.flatMap_cons, drainEvents]
      rw [hsplit] at hp
      have hlenv := hlen v
      rcases pfx_of_cons hp with rfl | ⟨p1, hp1, rfl⟩
      · simp only [sentTo, recvFrom, List.countP_nil]
        omega
      rcases pfx_of_cons hp1 with rfl | ⟨p2, hp2, rfl⟩
      · have hs : sentTo [Event.recvResult (w + 1) idx] (v + 1) = 0 := by
          simp [sentTo, List.countP_cons, isWorkSendTo]
        rw [hs]
        omega
      · have hih := hpfx p2 hp2 v
        have hcount : sentTo (Event.recvResult (w + 1) idx ::
              Event.consume idx (w + 1) :: p2) (v + 1) = sentTo p2 (v + 1) := by
          simp [sentTo, List.countP_cons, isWorkSendTo]
        have hcount2 : recvFrom (Event.recvResult (w + 1) idx ::
              Event.consume idx (w + 1) :: p2) (v + 1)
            = (if w + 1 = v + 1 then 1 else 0) + recvFrom p2 (v + 1) := by
          by_cases hvw : w + 1 = v + 1 <;>
            simp [recvFrom, List.countP_cons, isResultFrom, hvw, Nat.add_comm]
        rw [hcount, hcount2]
        by_cases hvw : v = w
        · have hupd : (Function.update qs w [] v).length = 0 := by
            rw [hvw, Function.update_same]
            rfl
          rw [hupd] at hih
          have hl1 : (qs v).length = 1 := by
            rw [hvw, hq]
            rfl
          have hcond : w + 1 = v + 1 := by omega
          rw [if_pos hcond, hl1]
          omega
        · have hupd : Function.update qs w [] v = qs v :=
            Function.update_noteq hvw _ _
          rw [hupd] at hih
          have hcond : ¬ (w + 1 = v + 1) := by omega
          rw [if_neg hcond]
          omega

/-! Extraction lemmas for the assembled trace. -/

lemma zip_snd_snd {α : Type} (js : List α) (rs : List (ℕ × ℕ))
    (h : rs.length = js.length) :
    (js.zip rs).map (fun p => p.2.2) = rs.map Prod.snd := by
  induction js generalizing rs with
  | nil =>
    cases rs with
    | nil => rfl
    | cons a b => simp at h
  | cons j tl ih =>
    cases rs with
    | nil => simp at h
    | cons r rtl => simp [List.zip_cons_cons, ih rtl (by simpa using h)]

lemma consumedIdxs_append (a b : List Event) :
    consumedIdxs (a ++ b) = consumedIdxs a ++ consumedIdxs b :=
  List.filterMap_append _ _ _

lemma dieSends_append (a b : List Event) :
    dieSends (a ++ b) = dieSends a ++ dieSends b :=
  List.filterMap_append _ _ _

lemma consumedIdxs_stepBind (ps : List (ℕ × ℕ × ℕ)) :
    consumedIdxs (ps.flatMap stepEvents) = ps.map (fun p => p.2.2) := by
  induction ps with
  | nil => rfl
  | cons p rest ih =>
    rw [List.flatMap_cons, consumedIdxs_append, ih]
    rfl

lemma consumedIdxs_drainBind (rs : List (ℕ × ℕ)) :
    consumedIdxs (rs.flatMap drainEvents) = rs.map Prod.snd := by
  induction rs with
  | nil => rfl
  | cons p rest ih =>
    rw [List.flatMap_cons, consumedIdxs_append, ih]
    rfl

lemma consumedIdxs_seedTrace (is : List ℕ) :
    consumedIdxs (is.map (fun i => Event.sendWork (i + 1) i)) = [] := by
  induction is with
  | nil => rfl
  | cons i rest ih => simpa [consumedIdxs] using ih

lemma consumedIdxs_dieTrace (ws : List ℕ) :
    consumedIdxs (ws.map Event.sendDie) = [] := by
  induction ws with
  | nil => rfl
  | cons i rest ih => simpa [consumedIdxs] using ih

lemma dieSends_seedTrace (is : List ℕ) :
    dieSends (is.map (fun i => Event.sendWork (i + 1) i)) = [] := by
  induction is with
  | nil => rfl
  | cons i rest ih => simpa [dieSends] using ih

lemma dieSends_stepBind (ps : List (ℕ × ℕ × ℕ)) :
    dieSends (ps.flatMap stepEvents) = [] := by
  induction ps with
  | nil => rfl
  | cons p rest ih =>
    rw [List.flatMap_cons, dieSends_append, ih]
    rfl

lemma dieSends_drainBind (rs : List (ℕ × ℕ)) :
    dieSends (rs.flatMap drainEvents) = [] := by
  induction rs with
  | nil => rfl
  | cons p rest ih =>
    rw [List.flatMap_cons, dieSends_append, ih]
    rfl

lemma dieSends_dieTrace (ws : List ℕ) :
    dieSends (ws.map Event.sendDie) = ws := by
  induction ws with
  | nil => rfl
  | cons i rest ih => simpa [dieSends] using ih

lemma sentTo_drainBind (rs : List (ℕ × ℕ)) (r : ℕ) :
    sentTo (rs.flatMap drainEvents) r = 0 := by
  induction rs with
  | nil => rfl
  | cons p rest ih =>
    cases p with
    | mk w idx => rw [List.flatMap_cons, sentTo_append, ih, drainEvents_sentTo]

lemma sentTo_dieTrace (ws : List ℕ) (r : ℕ) :
    sentTo (ws.map Event.sendDie) r = 0 := by
  induction ws with
  | nil => rfl
  | cons i rest ih => simpa [sentTo, List.countP_cons, isWorkSendTo] using ih

lemma recvFrom_dieTrace (ws : List ℕ) (r : ℕ) :
    recvFrom (ws.map Event.sendDie) r = 0 := by
  induction ws with
  | nil => rfl
  | cons i rest ih => simpa [recvFrom, List.countP_cons, isResultFrom] using ih

lemma recvFrom_seedTrace (is : List ℕ) (r : ℕ) :
    recvFrom (is.map (fun i => Event.sendWork (i + 1) i)) r = 0 := by
  induction is with
  | nil => rfl
  | cons i rest ih => simpa [recvFrom, List.countP_cons, isResultFrom] using ih

lemma sentTo_seedTrace (m w : ℕ) :
    sentTo ((List.range m).map (fun i => Event.sendWork (i + 1) i)) (w + 1)
      = if w < m then 1 else 0 := by
  induction m with
  | zero => simp [sentTo]
  | succ v ih =>
    rw [List.range_succ, List.map_append, sentTo_append, ih]
    simp only [List.map_cons, List.map_nil]
    have hone : sentTo [Event.sendWork (v + 1) v] (w + 1)
        = if v = w then 1 else 0 := by
      by_cases hvw : v = w
      · simp [sentTo, List.countP_cons, isWorkSendTo, hvw]
      · simp [sentTo, List.countP_cons, isWorkSendTo,
          (by omega : ¬ (v + 1 = w + 1))]
    rw [hone]
    split_ifs <;> omega

lemma range_min_append (W M : ℕ) (hW : 1 ≤ W) :
    List.range (min W M) ++ List.range' W (M - W) = List.range M := by
  rcases le_or_lt W M with h | h
  · have hmin : min W M = W := Nat.min_eq_left h
    rw [hmin, List.range_eq_range', List.range_eq_range']
    have := List.range'_append 0 W (M - W) 1
    simp only [Nat.zero_add, Nat.one_mul] at this
    rw [this, (by omega : M - W + W = M)]
  · have hmin : min W M = M := Nat.min_eq_right (by omega)
    have hsub : M - W = 0 := by omega
    rw [hmin, hsub]
    simp

/-! Full characterization of a master run for worker count W ≥ 1:
shape of the trace, identity of the seed and shutdown segments,
choice lists for the steady and drain receives, the consumed-index
multiset, and the per-prefix in-flight bound. -/

lemma masterRun_shape (W M : ℕ) (oracle : ℕ → ℕ) (hW : 1 ≤ W) :
    ∃ (rs1 rs2 : List (ℕ × ℕ)),
      masterRun W M oracle = some (
        (List.range (min W M)).map (fun i => Event.sendWork (i + 1) i)
        ++ ((List.range' W (M - W)).zip rs1).flatMap stepEvents
        ++ rs2.flatMap drainEvents
        ++ (List.range' 1 W).map Event.sendDie) ∧
      rs1.length = M - W ∧
      rs2.length = min W M ∧
      (∀ pr ∈ rs1, pr.1 < min W M) ∧
      (∀ pr ∈ rs2, pr.1 < min W M) ∧
      (↑(rs1.map Prod.snd) + ↑(rs2.map Prod.snd) : Multiset ℕ)
        = ↑(List.range M) ∧
      (∀ p, p <+:
          ((List.range (min W M)).map (fun i => Event.sendWork (i + 1) i)
            ++ ((List.range' W (M - W)).zip rs1).flatMap stepEvents
            ++ rs2.flatMap drainEvents
            ++ (List.range' 1 W).map Event.sendDie) →
        ∀ w, sentTo p (w + 1) ≤ recvFrom p (w + 1) + 1) := by
  rcases Nat.eq_zero_or_pos M with rfl | hM
  · refine ⟨[], [], ?_, by simp, by simp, by simp, by simp, by simp, ?_⟩
    · simp [masterRun, seedPhase, steadyPhase, drainPhase]
    · intro p hp w
      simp only [Nat.min_zero, List.range_zero, List.map_nil, Nat.zero_sub,
        List.nil_append, List.zip_nil_left
        ] at hp
      have hp2 : p <+: (List.range' 1 W).map Event.sendDie := by
        simpa using hp
      have hs : sentTo p (w + 1) = 0 := by
        have hle := List.Sublist.countP_le (isWorkSendTo (w + 1)) hp2.sublist
        have h0 := sentTo_dieTrace (List.range' 1 W) (w + 1)
        simp only [sentTo] at h0 ⊢
        omega
      rw [hs]
      omega
  · -- M ≥ 1: run the three phase specifications in sequence.
    have hqs1 : ∀ w, (seedPhase (fun _ => []) (List.range (min W M))).2 w
        = if w < min W M then [w] else [] := seed_qs_eq W M
    have hqm1 : queuedMultiset W (seedPhase (fun _ => []) (List.range (min W M))).2
        = ↑(List.range (min W M)) := by
      have hagree : ∀ u, u < W →
          (seedPhase (fun _ => []) (List.range (min W M))).2 u
            = (fun w => if w < min W M then [w] else []) u := fun u _ => hqs1 u
      rw [queuedMultiset_congr hagree]
      exact queuedMultiset_cutoff W (min W M) (Nat.min_le_left W M)
    have hmin1 : 1 ≤ min W M := by omega
    have hne1 : queuedMultiset W (seedPhase (fun _ => []) (List.range (min W M))).2 ≠ 0 := by
      rw [hqm1]
      intro h0
      have := congrArg Multiset.card h0
      rw [Multiset.coe_card, List.length_range] at this
      simp at this
      omega
    have hB1 : ∀ w, (seedPhase (fun _ => []) (List.range (min W M))).2 w ≠ []
        → w < min W M := by
      intro w hw
      rw [hqs1 w] at hw
      by_contra hc
      rw [if_neg hc] at hw
      exact hw rfl
    have hlen1 : ∀ w, ((seedPhase (fun _ => []) (List.range (min W M))).2 w).length ≤ 1 := by
      intro w
      rw [hqs1 w]
      by_cases h : w < min W M <;> simp [h]
    obtain ⟨rs1, qs2, t2, hrun2, hlenrs1, hrsB1, hmul2, hB2, hlen2, hcnt2, hpfx2⟩ :=
      steadyPhase_spec oracle W (min W M) (List.range' W (M - W))
        (seedPhase (fun _ => []) (List.range (min W M))).2 0 hne1 hB1 hlen1
    have hlenrs1 : rs1.length = M - W := by
      rw [hlenrs1, List.length_range']
    have hcard2 : Multiset.card (queuedMultiset W qs2) = min W M := by
      have := congrArg Multiset.card hmul2
      rw [Multiset.card_add, Multiset.card_add, Multiset.coe_card,
        Multiset.coe_card, hqm1, Multiset.coe_card, List.length_map,
        List.length_range, List.length_range'] at this
      omega
    obtain ⟨rs2, qs3, hrun3, hlenrs2, hrsB2, hmul3, hpfx3⟩ :=
      drainPhase_spec oracle W (min W M) (M - (M - W)) qs2 t2
        (by rw [hcard2]; omega) hB2 hlen2
    have hlenrs2 : rs2.length = min W M := by
      rw [hlenrs2]
      omega
    refine ⟨rs1, rs2, ?_, hlenrs1, hlenrs2, hrsB1, hrsB2, ?_, ?_⟩
    · simp only [masterRun, hrun2, hrun3]
      rw [seedPhase_fst]
    · rw [hmul3]
      rw [add_comm, hmul2, hqm1, Multiset.coe_add, range_min_append W M hW]
    · intro p hp w
      have hseedlen : sentTo ((List.range (min W M)).map
            (fun i => Event.sendWork (i + 1) i)) (w + 1)
          = ((seedPhase (fun _ => []) (List.range (min W M))).2 w).length := by
        rw [sentTo_seedTrace, hqs1 w]
        by_cases h : w < min W M <;> simp [h]
      have hseedrecv := recvFrom_seedTrace (List.range (min W M)) (w + 1)
      have hbodyfull : ∀ q, q <+:
          ((List.range (min W M)).map (fun i => Event.sendWork (i + 1) i)
            ++ ((List.range' W (M - W)).zip rs1).flatMap stepEvents
            ++ rs2.flatMap drainEvents) →
          sentTo q (w + 1) ≤ recvFrom q (w + 1) + 1 := by
        intro q hq
        rcases pfx_append_cases hq with hq12 | ⟨q3, hq3, rfl⟩
        · rcases pfx_append_cases hq12 with hq1 | ⟨q2, hq2, rfl⟩
          · have hle := List.Sublist.countP_le (isWorkSendTo (w + 1)) hq1.sublist
            have h1 := sentTo_seedTrace (min W M) w
            simp only [sentTo, recvFrom] at h1 hle ⊢
            by_cases h : w < min W M
            · rw [h1] at hle
              simp only [if_pos h] at hle
              omega
            · rw [h1] at hle
              simp only [if_neg h] at hle
              omega
          · have h2 := hpfx2 q2 hq2 w
            rw [sentTo_append, recvFrom_append, hseedlen, hseedrecv]
            omega
        · have h3 := hpfx3 q3 hq3 w
          have hc2 := hcnt2 w
          rw [sentTo_append, recvFrom_append, sentTo_append, recvFrom_append,
            hseedlen, hseedrecv]
          omega
      rcases pfx_append_cases hp with hbody | ⟨q4, hq4, rfl⟩
      · exact hbodyfull p hbody
      · have hs4 : sentTo q4 (w + 1) = 0 := by
          have hle := List.Sublist.countP_le (isWorkSendTo (w + 1)) hq4.sublist
          have h0 := sentTo_dieTrace (List.range' 1 W) (w + 1)
          simp only [sentTo] at h0 ⊢
          omega
        have hr4 : recvFrom q4 (w + 1) = 0 := by
          have hle := List.Sublist.countP_le (isResultFrom (w + 1)) hq4.sublist
          have h0 := recvFrom_dieTrace (List.range' 1 W) (w + 1)
          simp only [recvFrom] at h0 ⊢
          omega
        rw [sentTo_append, recvFrom_append, hs4, hr4]
        have := hbodyfull _ (List.prefix_refl _)
        omega

/-! Helper lemmas for the GenericMPI result fold (claim about foreach). -/

lemma gmpi_fold_results {α β : Type} (f : α → β) (l : List α) :
    ∀ (idxs : List ℕ) (st : GMPIState β),
      (idxs.foldl (gmpiHandle f l) st).results
        = idxs.foldl (fun r j => r.set j ((l.get? j).map f)) st.results := by
  intro idxs
  induction idxs with
  | nil => intro st; rfl
  | cons j rest ih =>
    intro st
    rw [List.foldl_cons, List.foldl_cons, ih]
    rfl

lemma foldl_set_get {β : Type} (g : ℕ → Option β) :
    ∀ (idxs : List ℕ) (acc : List (Option β)) (i : ℕ),
      (idxs.foldl (fun r j => r.set j (g j)) acc).get? i
        = if i < acc.length ∧ i ∈ idxs then some (g i) else acc.get? i := by
  intro idxs
  induction idxs with
  | nil =>
    intro acc i
    simp
  | cons j rest ih =>
    intro acc i
    rw [List.foldl_cons, ih]
    by_cases hmem : i ∈ rest
    · by_cases hlen : i < acc.length
      · rw [if_pos ⟨by simpa using hlen, hmem⟩,
          if_pos ⟨hlen, List.mem_cons_of_mem _ hmem⟩]
      · rw [if_neg (by simp; omega), if_neg (by simp; omega)]
        have h1 : (acc.set j (g j)).get? i = none := by
          rw [List.get?_eq_none, List.length_set]
          omega
        have h2 : acc.get? i = none := by
          rw [List.get?_eq_none]
          omega
        rw [h1, h2]
    · by_cases hij : i = j
      · subst hij
        rw [if_neg (by simp [hmem])]
        by_cases hlen : i < acc.length
        · rw [if_pos ⟨hlen, List.mem_cons_self _ _⟩]
          have hsome : acc.get? i ≠ none := by
            intro hnone
            rw [List.get?_eq_none] at hnone
            omega
          cases hac : acc.get? i with
          | none => exact absurd hac hsome
          | some v => rw [List.get?_set_eq, hac]; rfl
        · rw [if_neg (by simp; omega)]
          have h1 : (acc.set i (g i)).get? i = none := by
            rw [List.get?_eq_none, List.length_set]
            omega
          have h2 : acc.get? i = none := by
            rw [List.get?_eq_none]
            omega
          rw [h1, h2]
      · rw [if_neg (by simp [hmem]), if_neg (by simp [hmem, hij]),
          List.get?_set_ne _ _ (fun he => hij he.symm)]

lemma foldl_set_perm_range {β : Type} (g : ℕ → Option β) (n : ℕ)
    (idxs : List ℕ) (hperm : idxs.Perm (List.range n)) :
    idxs.foldl (fun r j => r.set j (g j)) (List.replicate n none)
      = (List.range n).map g := by
  apply List.ext_get?
  intro i
  rw [foldl_set_get, List.get?_map]
  by_cases hi : i < n
  · have hmem : i ∈ idxs := hperm.mem_iff.mpr (List.mem_range.mpr hi)
    rw [if_pos ⟨by simpa using hi, hmem⟩, List.get?_range hi]
    rfl
  · rw [if_neg (by simp; omega)]
    have h1 : (List.replicate n (none : Option β)).get? i = none := by
      rw [List.get?_eq_none, List.length_replicate]
      omega
    have h2 : (List.range n).get? i = none := by
      rw [List.get?_eq_none, List.length_range]
      omega
    rw [h1, h2]
    rfl

lemma range_map_get {α β : Type} (f : α → β) (l : List α) :
    (List.range l.length).map (fun j => (l.get? j).map f)
      = (l.map f).map some := by
  apply List.ext_get?
  intro i
  rw [List.get?_map, List.get?_map, List.get?_map]
  by_cases hi : i < l.length
  · rw [List.get?_range hi]
    have hsome : l.get? i ≠ none := by
      intro hnone
      rw [List.get?_eq_none] at hnone
      omega
    cases hac : l.get? i with
    | none => exact absurd hac hsome
    | some v => simp only [Option.map_some', hac]
  · have h1 : (List.range l.length).get? i = none := by
      rw [List.get?_eq_none, List.length_range]
      omega
    have h2 : l.get? i = none := by
      rw [List.get?_eq_none]
      omega
    rw [h1, h2]
    rfl

lemma foreachSerial_eq_map {α β : Type} (f : α → β) (l : List α) :
    foreachSerial f l = l.map f := by
  suffices h : ∀ acc : List β,
      l.foldl (fun results v => results ++ [f v]) acc = acc ++ l.map f by
    simpa using h []
  induction l with
  | nil => intro acc; simp
  | cons x tl ih =>
    intro acc
    simp [List.foldl_cons, ih]

lemma sentTo_stepBind_zero (ps : List (ℕ × ℕ × ℕ)) (r : ℕ)
    (h : ∀ p ∈ ps, p.2.1 + 1 ≠ r) : sentTo (ps.flatMap stepEvents) r = 0 := by
  induction ps with
  | nil => rfl
  | cons p rest ih =>
    rw [List.flatMap_cons, sentTo_append,
      ih (fun q hq => h q (List.mem_cons_of_mem _ hq))]
    cases p with
    | mk j wi =>
      cases wi with
      | mk w idx =>
        rw [stepEvents_sentTo, if_neg (h (j, w, idx) (List.mem_cons_self _ _))]

/-! Claim theorems. -/

lemma consume_covers_range_core (W M : ℕ) (oracle : ℕ → ℕ) (hW : 1 ≤ W) :
    ∃ evs, masterRun W M oracle = some evs ∧
      (consumedIdxs evs).Perm (List.range M) := by
  obtain ⟨rs1, rs2, hmr, h1, _, _, _, hmul, _⟩ := masterRun_shape W M oracle hW
  refine ⟨_, hmr, ?_⟩
  rw [consumedIdxs_append, consumedIdxs_append, consumedIdxs_append,
    consumedIdxs_seedTrace, consumedIdxs_stepBind, consumedIdxs_drainBind,
    consumedIdxs_dieTrace,
    zip_snd_snd _ _ (by rw [h1, List.length_range'])]
  simp only [List.nil_append, List.append_nil]
  refine Multiset.coe_eq_coe.mp ?_
  rw [← Multiset.coe_add]
  exact hmul

/-- C1.  For every item count M and worker count W ≥ 1 and every
arrival order, the master loop completes (no receive deadlocks) and
calls handleWorkResult exactly M times, each call consuming the
result of a distinct work index in [0, M): the consumed indices are a
permutation of 0 .. M-1. -/
theorem consume_covers_range (W M : ℕ) (oracle : ℕ → ℕ) (hW : 1 ≤ W) :
    ∃ evs, masterRun W M oracle = some evs ∧
      (consumedIdxs evs).Perm (List.range M) :=
  consume_covers_range_core W M oracle hW

theorem consume_covers_range_witness :
    1 ≤ 2 ∧ ∃ evs, masterRun 2 5 (fun t => t) = some evs ∧
      (consumedIdxs evs).Perm (List.range 5) :=
  ⟨by decide, consume_covers_range 2 5 (fun t => t) (by decide)⟩

/-- C2.  The trace of a completed run starts with the seed block:
work item i is sent to worker rank i+1 for each i in
0 .. min(W, M) - 1, in that order; and no rank above min(W, M) ever
receives a work message in the whole run (in particular, when M < W
the W - M unseeded workers receive no work at all). -/
theorem seed_phase_assignment (W M : ℕ) (oracle : ℕ → ℕ) (hW : 1 ≤ W) :
    ∃ evs rest, masterRun W M oracle = some evs ∧
      evs = ((List.range (min W M)).map (fun i => Event.sendWork (i + 1) i))
        ++ rest ∧
      (∀ r, min W M < r → sentTo evs r = 0) := by
  obtain ⟨rs1, rs2, hmr, h1, _, hB1, _, _, _⟩ := masterRun_shape W M oracle hW
  refine ⟨_, _, hmr, by rw [List.append_assoc, List.append_assoc], ?_⟩
  intro r hr
  have hrpos : ∃ u, r = u + 1 := ⟨r - 1, by omega⟩
  obtain ⟨u, rfl⟩ := hrpos
  rw [sentTo_append, sentTo_append, sentTo_append]
  have hseed : sentTo ((List.range (min W M)).map
      (fun i => Event.sendWork (i + 1) i)) (u + 1) = 0 := by
    rw [sentTo_seedTrace, if_neg (by omega)]
  have hsteady : sentTo (((List.range' W (M - W)).zip rs1).flatMap stepEvents)
      (u + 1) = 0 := by
    apply sentTo_stepBind_zero
    intro p hp
    have hmem := (List.of_mem_zip hp).2
    have := hB1 p.2 hmem
    omega
  rw [hseed, hsteady, sentTo_drainBind, sentTo_dieTrace]

theorem seed_phase_assignment_witness :
    1 ≤ 3 ∧ ∃ evs rest, masterRun 3 2 (fun t => t + 1) = some evs ∧
      evs = ((List.range (min 3 2)).map (fun i => Event.sendWork (i + 1) i))
        ++ rest ∧
      (∀ r, min 3 2 < r → sentTo evs r = 0) :=
  ⟨by decide, seed_phase_assignment 3 2 (fun t => t + 1) (by decide)⟩

/-- C3.  After the seed block, the steady-state phase assigns the
remaining indices W .. M-1 (equivalently min(W,M) .. M-1) in ascending
order, and each of these iterations is the exact event block
`stepEvents (j, w, idx)`: block-receive the result for `idx` from
worker rank w+1, send that same worker the next index j, then call
handleWorkResult on the just-received result, in that order. -/
theorem steady_state_structure (W M : ℕ) (oracle : ℕ → ℕ) (hW : 1 ≤ W) :
    ∃ (rs1 : List (ℕ × ℕ)) (post : List Event),
      masterRun W M oracle = some
        ((List.range (min W M)).map (fun i => Event.sendWork (i + 1) i)
          ++ ((List.range' W (M - W)).zip rs1).flatMap stepEvents
          ++ post) ∧
      rs1.length = M - W := by
  obtain ⟨rs1, rs2, hmr, h1, _, _, _, _, _⟩ := masterRun_shape W M oracle hW
  exact ⟨rs1, _, by rw [hmr, List.append_assoc
    (((List.range (min W M)).map (fun i => Event.sendWork (i + 1) i))
      ++ ((List.range' W (M - W)).zip rs1).flatMap stepEvents)], h1⟩

theorem steady_state_structure_witness :
    1 ≤ 2 ∧ ∃ (rs1 : List (ℕ × ℕ)) (post : List Event),
      masterRun 2 4 (fun t => 2 * t) = some
        ((List.range (min 2 4)).map (fun i => Event.sendWork (i + 1) i)
          ++ ((List.range' 2 (4 - 2)).zip rs1).flatMap stepEvents
          ++ post) ∧
      rs1.length = 4 - 2 :=
  ⟨by decide, steady_state_structure 2 4 (fun t => 2 * t) (by decide)⟩

/-- C4.  A completed run ends with the shutdown block: after a body
that contains all M handleWorkResult calls and no DIETAG message, the
master sends exactly one DIETAG to each worker rank 1 .. W, in rank
order — so every worker receives the sentinel exactly once and only
after the completion counter reached M.  When M = 0 the body is
empty: no work messages at all, yet every worker still gets its
sentinel. -/
theorem termination_sentinels (W M : ℕ) (oracle : ℕ → ℕ) (hW : 1 ≤ W) :
    ∃ body, masterRun W M oracle
        = some (body ++ (List.range' 1 W).map Event.sendDie) ∧
      dieSends body = [] ∧
      dieSends (body ++ (List.range' 1 W).map Event.sendDie)
        = List.range' 1 W ∧
      (consumedIdxs body).length = M ∧
      (M = 0 → body = []) := by
  obtain ⟨rs1, rs2, hmr, h1, h2, _, _, _, _⟩ := masterRun_shape W M oracle hW
  have hdie : dieSends
      ((List.range (min W M)).map (fun i => Event.sendWork (i + 1) i)
        ++ ((List.range' W (M - W)).zip rs1).flatMap stepEvents
        ++ rs2.flatMap drainEvents) = [] := by
    rw [dieSends_append, dieSends_append, dieSends_seedTrace,
      dieSends_stepBind, dieSends_drainBind]
    rfl
  refine ⟨_, hmr, hdie, ?_, ?_, ?_⟩
  · rw [dieSends_append, hdie, dieSends_dieTrace]
    rfl
  · rw [consumedIdxs_append, consumedIdxs_append, consumedIdxs_seedTrace,
      consumedIdxs_stepBind, consumedIdxs_drainBind,
      zip_snd_snd _ _ (by rw [h1, List.length_range'])]
    simp only [List.nil_append, List.length_append, List.length_map]
    rw [h1, h2]
    omega
  · intro hM0
    subst hM0
    have hrs1 : rs1 = [] := List.length_eq_zero.mp (by omega)
    have hrs2 : rs2 = [] := List.length_eq_zero.mp (by rw [h2]; simp)
    subst hrs1
    subst hrs2
    simp

theorem termination_sentinels_witness :
    1 ≤ 4 ∧ ∃ body, masterRun 4 0 (fun _ => 0)
        = some (body ++ (List.range' 1 4).map Event.sendDie) ∧
      dieSends body = [] ∧
      dieSends (body ++ (List.range' 1 4).map Event.sendDie)
        = List.range' 1 4 ∧
      (consumedIdxs body).length = 0 ∧
      (0 = 0 → body = []) :=
  ⟨by decide, termination_sentinels 4 0 (fun _ => 0) (by decide)⟩

/-- C7.  In-flight bound: along every prefix of the trace of a
completed run and for every worker rank w+1, the number of work
messages sent to that worker exceeds the number of results received
from it by at most one — a worker is never assigned a second item
before its previous result has been received. -/
theorem inflight_at_most_one (W M : ℕ) (oracle : ℕ → ℕ) (hW : 1 ≤ W) :
    ∃ evs, masterRun W M oracle = some evs ∧
      ∀ p, p <+: evs → ∀ w,
        sentTo p (w + 1) ≤ recvFrom p (w + 1) + 1 := by
  obtain ⟨rs1, rs2, hmr, _, _, _, _, _, hpfx⟩ := masterRun_shape W M oracle hW
  exact ⟨_, hmr, hpfx⟩

theorem inflight_at_most_one_witness :
    1 ≤ 2 ∧ ∃ evs, masterRun 2 3 (fun t => t + 1) = some evs ∧
      ∀ p, p <+: evs → ∀ w,
        sentTo p (w + 1) ≤ recvFrom p (w + 1) + 1 :=
  ⟨by decide, inflight_at_most_one 2 3 (fun t => t + 1) (by decide)⟩

/-- C8.  The serial fallback of foreach returns the per-element images
of f in original order, and the distributed path (GenericMPI) fills
the coordinator results list with exactly the same values at the same
positions, for every worker count ≥ 1, arrival order, and finalRun
flag. -/
theorem foreach_serial_eq_distributed {α β : Type} (f : α → β) (l : List α)
    (W : ℕ) (oracle : ℕ → ℕ) (finalRun : Bool) (hW : 1 ≤ W) :
    foreachSerial f l = l.map f ∧
    gmpiRun f l W oracle finalRun = some ((l.map f).map some) := by
  refine ⟨foreachSerial_eq_map f l, ?_⟩
  obtain ⟨evs, hmr, hperm⟩ := consume_covers_range_core W l.length oracle hW
  rw [gmpiRun, hmr, Option.map_some']
  congr 1
  rw [gmpi_fold_results, gmpiBeforeWork,
    foldl_set_perm_range _ _ _ hperm, range_map_get]

theorem foreach_serial_eq_distributed_witness :
    1 ≤ 2 ∧ (foreachSerial (fun x => x * x) [0, 1, 2, 3]
        = [0, 1, 2, 3].map (fun x => x * x) ∧
      gmpiRun (fun x => x * x) [0, 1, 2, 3] 2 (fun t => t) true
        = some (([0, 1, 2, 3].map (fun x => x * x)).map some)) :=
  ⟨by decide,
    foreach_serial_eq_distributed (fun x => x * x) [0, 1, 2, 3] 2
      (fun t => t) true (by decide)⟩

/-- C5.  Constructing the balancer with fewer than two processes
raises the configuration error, before any message is sent; with two
or more processes construction succeeds, also without sending any
message (the construction trace is empty in both cases — the
constructor body contains no send). -/
theorem init_requires_two_processes (numprocs : ℕ) (g : ℤ) :
    (numprocs < 2 → balancerInit numprocs g = Except.error
      "MPIBalancer must run on at least 2 processes for the Master Slave paradigm to make sense.") ∧
    (2 ≤ numprocs → balancerInit numprocs g = Except.ok (g, [])) := by
  constructor
  · intro h
    rw [balancerInit, if_pos h]
  · intro h
    rw [balancerInit, if_neg (by omega)]

theorem init_requires_two_processes_witness :
    1 < 2 ∧ 2 ≤ 3 ∧ balancerInit 1 7 = Except.error
      "MPIBalancer must run on at least 2 processes for the Master Slave paradigm to make sense." ∧
    balancerInit 3 7 = Except.ok (7, []) :=
  ⟨by decide, by decide, (init_requires_two_processes 1 7).1 (by decide),
    (init_requires_two_processes 3 7).2 (by decide)⟩

/-- C6, counterexample.  With two processes and getNumWorkItems
returning -1, __init__ succeeds, storing the negative count
unvalidated — no configuration error is reported, contradicting the
claim that a negative itemCount is rejected before messaging. -/
theorem negative_itemcount_not_rejected :
    balancerInit 2 (-1) = Except.ok (-1, []) := rfl

/-- C6, amended.  If getNumWorkItems returns a negative value the
scheduler reports no error at all: for every process count ≥ 2,
construction succeeds and stores the negative value unvalidated (the
only construction-time check is the process count). -/
theorem negative_itemcount_accepted (numprocs : ℕ) (g : ℤ)
    (h2 : 2 ≤ numprocs) (hneg : g < 0) :
    balancerInit numprocs g = Except.ok (g, []) := by
  rw [balancerInit, if_neg (by omega)]

theorem negative_itemcount_accepted_witness :
    2 ≤ 2 ∧ (-1 : ℤ) < 0 ∧ balancerInit 2 (-1) = Except.ok (-1, []) :=
  ⟨by decide, by decide, negative_itemcount_accepted 2 (-1) (by decide) (by decide)⟩

/-- C9.  SimpleMasterSlave.masterBeforeWork applied to an already
constructed master instance whose call operator does not accept zero
arguments: since hasattr(x, double-underscore init) is true for every
Python object, the instance-detection branch is dead and the code
evaluates masterClass() unconditionally, raising TypeError instead of
using the ready instance as-is. -/
theorem ready_instance_is_called :
    resolveMasterInstance (PyArg.ready (0 : ℕ) none)
      = Except.error "TypeError: not callable with zero arguments" := rfl

/-- C10.  The finalRun flag is forwarded to MPIBalancer.run and never
read: two runs that differ only in finalRun produce identical traces,
identical Work Contract activity, and identical results, on both the
master and slave sides of run and on the foreach path. -/
theorem finalRun_has_no_effect {ρ α β : Type} (W M : ℕ) (oracle : ℕ → ℕ)
    (myid : ℕ) (compute : ℕ → ρ) (inbox : List SlaveMsg)
    (f : α → β) (l : List α) (b1 b2 : Bool) :
    balancerRun W M oracle myid compute inbox b1
      = balancerRun W M oracle myid compute inbox b2 ∧
    gmpiRun f l W oracle b1 = gmpiRun f l W oracle b2 :=
  ⟨rfl, rfl⟩

end HandyMPI
